import Mathlib

/-!
Verification development for the sentimize image art transformation engine
(src/transforms.py).  The transforms are shallowly embedded: bitmaps are
rectangular lists of RGB triples, machine pixel arithmetic is modelled over
Nat / Int / Rat, and external primitives that the source merely consumes
(PIL resizing and polygon rasterisation, the numpy random generator, scipy
Voronoi construction, the font renderer, the colour quantizer) appear as
explicit function parameters or spec-modelled definitions.
-/

namespace Sentimize

/-- An RGB pixel: red, green, blue channel values (0..255 in the source). -/
abbrev Rgb := Nat × Nat × Nat

/-- A bitmap: a list of rows, each row a list of pixels (row-major order). -/
abbrev Grid := List (List Rgb)

/-- Pixel access with the usual numpy semantics for our embedding; out of
range access returns the (0,0,0) default, which the theorems either guard
with bounds or tolerate explicitly. -/
def getPix (g : Grid) (i j : Nat) : Rgb := (g.getD i []).getD j (0, 0, 0)

/-- The bitmap is rectangular with the given height and width. -/
def Rect (g : Grid) (h w : Nat) : Prop :=
  g.length = h ∧ ∀ row ∈ g, row.length = w

/-- Width of a bitmap (length of its first row). -/
def width (g : Grid) : Nat := (g.headD []).length

/-! ## Quadtree decomposer (transforms.py, quadtree / _split)

The recursion in _split computes the mean of the three per-channel
standard deviations of the region (numpy: np.mean(np.std(flat, axis=0)))
and compares it against the threshold.  The comparison of that real
number with the threshold is the only non-rational step; the recursion is
therefore parametrised by a boolean test stdTest, and the theorems relate
stdTest to the exact real-valued quantity stdReal defined below. -/

/-- Pixels of the rectangular region src[y : y+bh, x : x+bw], row-major. -/
def regionPixels (src : Grid) (x y bw bh : Nat) : List Rgb :=
  ((src.drop y).take bh).flatMap (fun row => (row.drop x).take bw)

/-- Mean of a list of rationals (numpy mean; empty list gives 0, which the
source never hits because empty regions are dropped first). -/
def qMean (l : List ℚ) : ℚ := if l.length = 0 then 0 else l.sum / l.length

/-- Population variance of a list of rationals (numpy std squared). -/
def qVar (l : List ℚ) : ℚ := qMean (l.map (fun v => (v - qMean l) ^ 2))

/-- Red channel values of a pixel list, as rationals. -/
def redsQ (ps : List Rgb) : List ℚ := ps.map (fun p => (p.1 : ℚ))

/-- Green channel values of a pixel list, as rationals. -/
def greensQ (ps : List Rgb) : List ℚ := ps.map (fun p => (p.2.1 : ℚ))

/-- Blue channel values of a pixel list, as rationals. -/
def bluesQ (ps : List Rgb) : List ℚ := ps.map (fun p => (p.2.2 : ℚ))

/-- The source's region statistic: the mean of the three per-channel
standard deviations, float(np.mean(np.std(flat, axis=0))), as a real. -/
noncomputable def stdReal (src : Grid) (x y bw bh : Nat) : ℝ :=
  (Real.sqrt (qVar (redsQ (regionPixels src x y bw bh))) +
    Real.sqrt (qVar (greensQ (regionPixels src x y bw bh))) +
    Real.sqrt (qVar (bluesQ (regionPixels src x y bw bh)))) / 3

/-- Integer mean of a list of naturals: int(np.mean(...)) of uint8 data.
np.mean sums are exact in float64 at these sizes and the float division
cannot cross an integer, so int(...) is exactly the floor, i.e. Nat
division of the exact sum. -/
def intMean (l : List Nat) : Nat := l.sum / l.length

/-- avg = tuple(int(v) for v in flat.mean(axis=0)): per-channel floor of
the exact mean of the region's pixels. -/
def meanColor (src : Grid) (x y bw bh : Nat) : Rgb :=
  (intMean ((regionPixels src x y bw bh).map (fun p => p.1)),
    intMean ((regionPixels src x y bw bh).map (fun p => p.2.1)),
    intMean ((regionPixels src x y bw bh).map (fun p => p.2.2)))

/-- A painted quadtree leaf: its rectangle, the recursion depth at which it
was painted, and its fill colour. -/
structure QLeaf where
  x : Nat
  y : Nat
  bw : Nat
  bh : Nat
  depth : Nat
  color : Rgb
deriving DecidableEq

/-- A decision procedure for the std-versus-threshold comparison of a
region, abstracting the float comparison std < threshold in _split. -/
abbrev StdTest := Nat → Nat → Nat → Nat → Bool

/-- The stopping rule of _split: std below threshold, or the depth has
reached max_depth, or either dimension has shrunk below 4 pixels. -/
def leafCond (t : StdTest) (maxDepth x y bw bh depth : Nat) : Bool :=
  t x y bw bh || decide (maxDepth ≤ depth) || decide (min bw bh < 4)

/-- An axis-aligned rectangle (x, y, width, height), the value struct the
quadtree works on. -/
structure NRect where
  x : Nat
  y : Nat
  w : Nat
  h : Nat
deriving DecidableEq

/-- The four quadrants a region is split into, in the traversal order of
the source (top-left, top-right, bottom-left, bottom-right), halving width
and height with floor division so the remainder goes to the second half. -/
def childRects (x y bw bh : Nat) : List NRect :=
  [⟨x, y, bw / 2, bh / 2⟩,
   ⟨x + bw / 2, y, bw - bw / 2, bh / 2⟩,
   ⟨x, y + bh / 2, bw / 2, bh - bh / 2⟩,
   ⟨x + bw / 2, y + bh / 2, bw - bw / 2, bh - bh / 2⟩]

/-- Whether the integer point (px, py) lies inside a rectangle. -/
def containsR (r : NRect) (px py : Nat) : Bool :=
  decide (r.x ≤ px ∧ px < r.x + r.w ∧ r.y ≤ py ∧ py < r.y + r.h)

/-- Whether the integer point (px, py) lies inside a painted leaf. -/
def leafContains (l : QLeaf) (px py : Nat) : Bool :=
  decide (l.x ≤ px ∧ px < l.x + l.bw ∧ l.y ≤ py ∧ py < l.y + l.bh)

/-- The recursion of _split, returning the list of painted leaves.  Regions
with a zero dimension are dropped silently; a region meeting the stopping
rule is painted with the floored mean colour; otherwise the region is
split into four quadrants by floor-halving width and height.  The fuel
argument makes the recursion structural; the recursion in the source
terminates because a split requires depth < max_depth, so fuel at least
maxDepth + 1 - depth never reaches the dead 0 branch. -/
def splitGo (src : Grid) (t : StdTest) (maxDepth : Nat) :
    Nat → Nat → Nat → Nat → Nat → Nat → List QLeaf
  | 0, _, _, _, _, _ => []
  | fuel + 1, x, y, bw, bh, depth =>
    if bw < 1 ∨ bh < 1 then []
    else if leafCond t maxDepth x y bw bh depth then
      [⟨x, y, bw, bh, depth, meanColor src x y bw bh⟩]
    else
      (childRects x y bw bh).flatMap
        (fun r => splitGo src t maxDepth fuel r.x r.y r.w r.h (depth + 1))

/-- The full decomposition of a w by h canvas: the painted leaves of the
recursion started on the whole image at depth 0. -/
def splitLeaves (src : Grid) (t : StdTest) (maxDepth w h : Nat) : List QLeaf :=
  splitGo src t maxDepth (maxDepth + 1) 0 0 w h 0

/-- The regions considered by the recursion started on the full w by h
canvas: the root, and the four quadrants of any considered region that
did not meet the stopping rule. -/
inductive Considered (t : StdTest) (maxDepth w h : Nat) :
    Nat → Nat → Nat → Nat → Nat → Prop
  | root : Considered t maxDepth w h 0 0 w h 0
  | tl {x y bw bh d} : Considered t maxDepth w h x y bw bh d →
      1 ≤ bw → 1 ≤ bh → leafCond t maxDepth x y bw bh d = false →
      Considered t maxDepth w h x y (bw / 2) (bh / 2) (d + 1)
  | tr {x y bw bh d} : Considered t maxDepth w h x y bw bh d →
      1 ≤ bw → 1 ≤ bh → leafCond t maxDepth x y bw bh d = false →
      Considered t maxDepth w h (x + bw / 2) y (bw - bw / 2) (bh / 2) (d + 1)
  | bl {x y bw bh d} : Considered t maxDepth w h x y bw bh d →
      1 ≤ bw → 1 ≤ bh → leafCond t maxDepth x y bw bh d = false →
      Considered t maxDepth w h x (y + bh / 2) (bw / 2) (bh - bh / 2) (d + 1)
  | br {x y bw bh d} : Considered t maxDepth w h x y bw bh d →
      1 ≤ bw → 1 ≤ bh → leafCond t maxDepth x y bw bh d = false →
      Considered t maxDepth w h (x + bw / 2) (y + bh / 2) (bw - bw / 2) (bh - bh / 2) (d + 1)

/-- stdTest t decides the real comparison stdReal < T on every region the
recursion actually considers. -/
def Faithful (src : Grid) (t : StdTest) (maxDepth w h : Nat) (T : ℝ) : Prop :=
  ∀ x y bw bh d, Considered t maxDepth w h x y bw bh d →
    (t x y bw bh = true ↔ stdReal src x y bw bh < T)

/-- Rounding to the nearest integer (the reading of the specification's
phrase rounded to nearest integer channel values). -/
def roundNearest (q : ℚ) : Nat := (⌊q + 1 / 2⌋).toNat

/-- The specification's claimed leaf colour: per-channel nearest-integer
rounding of the region's exact mean. -/
def roundMeanColor (src : Grid) (x y bw bh : Nat) : Rgb :=
  (roundNearest (qMean (redsQ (regionPixels src x y bw bh))),
    roundNearest (qMean (greensQ (regionPixels src x y bw bh))),
    roundNearest (qMean (bluesQ (regionPixels src x y bw bh))))

/-- A trivially true std decision, used for concrete instantiations on
images whose every considered region is below the threshold. -/
def ctTrue : StdTest := fun _ _ _ _ => true

/-- A 2 by 2 bitmap, three black pixels and one of value 3: its exact mean
is 3/4 per channel, whose floor (0) and nearest rounding (1) differ. -/
def img4 : Grid := [[(0, 0, 0), (0, 0, 0)], [(0, 0, 0), (3, 3, 3)]]

/-- A 2 by 2 flat bitmap (all pixels equal), every region variance is 0. -/
def imgFlat2 : Grid := [[(5, 5, 5), (5, 5, 5)], [(5, 5, 5), (5, 5, 5)]]

/-! ## Posterize and pixelate (transforms.py, posterize / pixelate) -/

/-- One colour channel of posterize: np.floor(v / factor) * factor +
factor / 2, then np.clip to [0, 255], then astype(np.uint8), which on the
clipped non-negative data is the floor. -/
def posterizeChan (factor : ℚ) (v : Nat) : Nat :=
  (⌊max 0 (min 255 (⌊(v : ℚ) / factor⌋ * factor + factor / 2))⌋).toNat

/-- posterize: per-channel colour depth reduction.  levels = 0 raises
ZeroDivisionError at factor = 256.0 / levels; the saturation enhancement
(ImageEnhance.Color, an external primitive passed as the parameter
enhance) runs only when the multiplier differs from 1 by more than 0.01.
No parameter validation happens at the function boundary. -/
def posterize (enhance : ℚ → Grid → Grid) (g : Grid) (levels : ℤ) (sat : ℚ) :
    Except String Grid :=
  if levels = 0 then .error "ZeroDivisionError"
  else
    .ok (if 1 / 100 < |sat - 1| then
      enhance sat (g.map (fun row => row.map (fun p =>
        (posterizeChan (256 / (levels : ℚ)) p.1,
          posterizeChan (256 / (levels : ℚ)) p.2.1,
          posterizeChan (256 / (levels : ℚ)) p.2.2))))
    else
      g.map (fun row => row.map (fun p =>
        (posterizeChan (256 / (levels : ℚ)) p.1,
          posterizeChan (256 / (levels : ℚ)) p.2.1,
          posterizeChan (256 / (levels : ℚ)) p.2.2))))

/-- pixelate: downsample to max(1, w // block) by max(1, h // block) with
bilinear resampling, optionally quantize, then upsample back with nearest
neighbour (the three resampling/quantization primitives are external and
passed as parameters).  block_size = 0 raises ZeroDivisionError at the
floor divisions; no parameter validation happens at the boundary. -/
def pixelate (resizeBil resizeNear : Grid → Nat → Nat → Grid)
    (quantizeP : Nat → Grid → Grid) (g : Grid) (blockSize numColors : ℤ) :
    Except String Grid :=
  if blockSize = 0 then .error "ZeroDivisionError"
  else
    .ok (resizeNear
      (if numColors < 256 then
        quantizeP numColors.toNat
          (resizeBil g (max 1 ((width g : ℤ).fdiv blockSize)).toNat
            (max 1 ((g.length : ℤ).fdiv blockSize)).toNat)
      else
        resizeBil g (max 1 ((width g : ℤ).fdiv blockSize)).toNat
          (max 1 ((g.length : ℤ).fdiv blockSize)).toNat)
      (width g) g.length)

/-! ## Palette extraction (transforms.py, extract_palette) -/

/-- One counting step of the Python dict tally: increment the colour's
count if present, else append it with count 1 (insertion order). -/
def bump : List (Rgb × Nat) → Rgb → List (Rgb × Nat)
  | [], p => [(p, 1)]
  | (q, c) :: rest, p =>
    if q = p then (q, c + 1) :: rest else (q, c) :: bump rest p

/-- Pixel-count tally over getdata() in row-major order. -/
def tally (ps : List Rgb) : List (Rgb × Nat) := ps.foldl bump []

/-- Stable insertion keeping counts non-increasing: the element being
inserted precedes equal counts, matching Python's stable sort by -count. -/
def insertDesc (x : Rgb × Nat) : List (Rgb × Nat) → List (Rgb × Nat)
  | [] => [x]
  | y :: ys => if y.2 ≤ x.2 then x :: y :: ys else y :: insertDesc x ys

/-- sorted(counts.items(), key=lambda x: -x[1]): stable sort by
non-increasing count. -/
def sortDesc (l : List (Rgb × Nat)) : List (Rgb × Nat) := l.foldr insertDesc []

/-- extract_palette on the already-quantized working bitmap: tally the
pixels, sort by descending count, keep the first n_colors entries. -/
def extract_palette (q : Grid) (nColors : Nat) : List (Rgb × Nat) :=
  (sortDesc (tally q.flatten)).take nColors

/-- Total of the pixel counts of a palette. -/
def sumCounts (l : List (Rgb × Nat)) : Nat := (l.map (fun x => x.2)).sum

/-! ## Paint-by-number generator (transforms.py, color_by_number)

The embedding works on the already-quantized working bitmap q (the colour
quantizer img.quantize(colors=n) is an external capability the source
consumes); everything downstream of the quantizer - np.unique, the
boundary map, the outline bitmap, connected components (ndimage.label
with its default 4-connectivity), minimum sizes, centroids and label
stamping - is embedded faithfully. -/

abbrev Pos := Nat × Nat

/-- First-occurrence deduplication of a pixel list. -/
def dedupFirst (ps : List Rgb) : List Rgb :=
  ps.foldl (fun acc p => if p ∈ acc then acc else acc ++ [p]) []

/-- Lexicographic order on RGB triples, the row order of np.unique. -/
def lexLeRgb (a b : Rgb) : Bool :=
  decide (a.1 < b.1) || (decide (a.1 = b.1) && (decide (a.2.1 < b.2.1) ||
    (decide (a.2.1 = b.2.1) && decide (a.2.2 ≤ b.2.2))))

/-- Insertion into a lexicographically sorted colour list. -/
def insertLex (x : Rgb) : List Rgb → List Rgb
  | [] => [x]
  | y :: ys => if lexLeRgb x y then x :: y :: ys else y :: insertLex x ys

/-- Lexicographic insertion sort. -/
def sortLex (l : List Rgb) : List Rgb := l.foldr insertLex []

/-- np.unique(flat, axis=0): the distinct colours, lexicographically
sorted. -/
def uniqueColors (q : Grid) : List Rgb := sortLex (dedupFirst q.flatten)

/-- Index of the first occurrence of a colour in a colour list (length of
the list when absent). -/
def idxOf (a : Rgb) : List Rgb → Nat
  | [] => 0
  | b :: l => if b = a then 0 else idxOf a l + 1

/-- The 1-indexed per-pixel colour index map ((inverse + 1) of
np.unique(..., return_inverse=True)). -/
def colorMap (q : Grid) (i j : Nat) : Nat :=
  idxOf (getPix q i j) (uniqueColors q) + 1

/-- Boundary pixels: the colour index differs from the right or bottom
neighbour; the last column and row are padded with false on the side with
no neighbour (np.pad of h_diff and v_diff). -/
def isBoundary (q : Grid) (w h i j : Nat) : Bool :=
  (decide (j + 1 < w) && decide (colorMap q i j ≠ colorMap q i (j + 1))) ||
  (decide (i + 1 < h) && decide (colorMap q i j ≠ colorMap q (i + 1) j))

/-- The outline bitmap before label stamping: all white except boundary
pixels, painted black. -/
def outlineBase (q : Grid) (w h : Nat) : Grid :=
  (List.range h).map (fun i => (List.range w).map (fun j =>
    if isBoundary q w h i j then ((0, 0, 0) : Rgb) else (255, 255, 255)))

/-- Row-major list of the positions carrying a colour index (the order of
np.where on the mask). -/
def cellsOf (q : Grid) (w h cidx : Nat) : List Pos :=
  (List.range h).flatMap (fun i => (List.range w).filterMap (fun j =>
    if colorMap q i j = cidx then some (i, j) else none))

/-- 4-adjacency of grid positions (the default connectivity of
ndimage.label). -/
def adjB (p q : Pos) : Bool :=
  (decide (p.1 = q.1) && (decide (p.2 + 1 = q.2) || decide (q.2 + 1 = p.2))) ||
  (decide (p.2 = q.2) && (decide (p.1 + 1 = q.1) || decide (q.1 + 1 = p.1)))

/-- One growth step of a flood fill: adjoin every not-yet-collected cell
adjacent to the component collected so far. -/
def growStep (cells comp : List Pos) : List Pos :=
  comp ++ cells.filter (fun c => !comp.contains c && comp.any (fun p => adjB c p))

/-- Iterated growth. -/
def growN (cells : List Pos) : Nat → List Pos → List Pos
  | 0, comp => comp
  | n + 1, comp => growN cells n (growStep cells comp)

/-- The 4-connected component of start within cells (one label of
ndimage.label; cells.length steps reach the fixpoint). -/
def flood (cells : List Pos) (start : Pos) : List Pos :=
  growN cells cells.length [start]

/-- All 4-connected components of cells, in order of first discovery. -/
def componentsOf (cells : List Pos) : List (List Pos) :=
  cells.foldl (fun acc c =>
    if acc.any (fun comp => comp.contains c) then acc
    else acc ++ [flood cells c]) []

/-- Row-major order on positions (the enumeration order of np.where). -/
def posLexLe (a b : Pos) : Bool :=
  decide (a.1 < b.1) || (decide (a.1 = b.1) && decide (a.2 ≤ b.2))

/-- Insertion into a row-major sorted position list. -/
def insertPos (x : Pos) : List Pos → List Pos
  | [] => [x]
  | y :: ys => if posLexLe x y then x :: y :: ys else y :: insertPos x ys

/-- Row-major insertion sort of positions. -/
def sortPos (l : List Pos) : List Pos := l.foldr insertPos []

/-- Squared Euclidean distance to the centroid, over the integers. -/
def d2 (p : Pos) (cy cx : Nat) : ℤ :=
  ((p.1 : ℤ) - cy) ^ 2 + ((p.2 : ℤ) - cx) ^ 2

/-- The first minimiser of f (np.argmin keeps the first occurrence of the
minimum). -/
def argminFirst (f : Pos → ℤ) : List Pos → Option Pos
  | [] => none
  | p :: ps =>
    match argminFirst f ps with
    | none => some p
    | some q => if f p ≤ f q then some p else some q

/-- The label anchor of a component: the floor of the coordinate means
(int(np.mean(...)) of exact sums), or, when that pixel is outside the
component, the component pixel closest to it in squared distance with
ties broken in np.where row-major order. -/
def anchorOf (comp : List Pos) : Pos :=
  if comp.contains (((sortPos comp).map (fun p => p.1)).sum / comp.length,
      ((sortPos comp).map (fun p => p.2)).sum / comp.length) then
    (((sortPos comp).map (fun p => p.1)).sum / comp.length,
      ((sortPos comp).map (fun p => p.2)).sum / comp.length)
  else
    (argminFirst
      (fun p => d2 p (((sortPos comp).map (fun p => p.1)).sum / comp.length)
        (((sortPos comp).map (fun p => p.2)).sum / comp.length))
      (sortPos comp)).getD
      (((sortPos comp).map (fun p => p.1)).sum / comp.length,
        ((sortPos comp).map (fun p => p.2)).sum / comp.length)

/-- min_size = max(20, int(total_pixels * min_region_pct / 100)): for any
percentage the Python int() truncation and this floor-toNat composite
agree under the outer max with 20. -/
def minSizeOf (total : Nat) (pct : ℚ) : Nat :=
  max 20 (Int.toNat ⌊(total : ℚ) * pct / 100⌋)

/-- The stamped labels: for each colour index 1..K in np.unique order,
each 4-connected component of that colour whose pixel count reaches
min_size produces one label (colour index, anchor). -/
def stampsOf (q : Grid) (w h : Nat) (pct : ℚ) : List (Nat × Pos) :=
  (List.range (uniqueColors q).length).flatMap (fun k =>
    ((componentsOf (cellsOf q w h (k + 1))).filter
      (fun comp => minSizeOf (h * w) pct ≤ comp.length)).map
      (fun comp => (k + 1, anchorOf comp)))

/-- Write one pixel of a grid (out-of-range writes are dropped). -/
def setPix (g : Grid) (i j : Nat) (c : Rgb) : Grid :=
  g.set i ((g.getD i []).set j c)

/-- Modelled from the spec: the font-rendering primitive (draw.text with
anchor mm, an external capability consumed by the source) stamps the
label text centered at the anchor in the fixed neutral label colour
(130, 130, 130); it is modelled as painting the anchor pixel in that
colour. -/
def stampLabels (g : Grid) (stamps : List (Nat × Pos)) : Grid :=
  stamps.foldl (fun acc s => setPix acc s.2.1 s.2.2 (130, 130, 130)) g

/-- The returned palette: the (i + 1, unique_colors[i]) pairs of
enumerate(unique_colors). -/
def paletteOf (q : Grid) : List (Nat × Rgb) :=
  (List.range (uniqueColors q).length).map
    (fun i => (i + 1, (uniqueColors q).getD i (0, 0, 0)))

/-- color_by_number on the already-quantized working bitmap: the outline
bitmap with stamped labels, the filled answer key, and the palette. -/
def color_by_number (q : Grid) (w h : Nat) (pct : ℚ) :
    Grid × Grid × List (Nat × Rgb) :=
  (stampLabels (outlineBase q w h) (stampsOf q w h pct), q, paletteOf q)

/-- A 4 by 5 flat bitmap: a single colour whose one component has exactly
20 pixels, meeting the minimum labelled size. -/
def img20 : Grid := List.replicate 4 (List.replicate 5 ((7, 7, 7) : Rgb))

/-- A 2 by 2 bitmap with two distinct colours, used to instantiate the
palette extraction claims. -/
def imgPal : Grid := [[(1, 2, 3), (1, 2, 3)], [(9, 9, 9), (1, 2, 3)]]

/-! ## Mosaic / stained glass (transforms.py, mosaic)

The scipy Voronoi construction, the PIL polygon rasterisers and numpy's
seeded Generator are external primitives and enter the embedding as
explicit parameters.  Everything the source computes itself - the fixed
seed 42, the seed draws, the four guard corners, region lookup and
skipping, vertex clamping, centroids, patch averaging and the border
branch - is embedded below. -/

/-- The result of the scipy Voronoi construction: per-point region
indices, regions as vertex index lists (-1 marks an unbounded region),
and the vertex coordinates. -/
structure VorDiagram where
  point_region : List Nat
  regions : List (List ℤ)
  vertices : List (ℚ × ℚ)

/-- A deterministic model of numpy's seeded Generator: a state type, an
initialiser from a seed, a scalar draw and an array draw from [lo, hi). -/
structure RngModel (σ : Type) where
  init : Nat → σ
  integers : ℤ → ℤ → σ → ℤ × σ
  integersN : ℤ → ℤ → Nat → σ → List ℤ × σ

/-- Seed placement: np.column_stack of integers(0, w, N) and
integers(0, h, N) drawn from default_rng(42), the fixed seed. -/
def mosaicSeeds {σ : Type} (R : RngModel σ) (w h n : Nat) : List (ℚ × ℚ) :=
  let s0 := R.init 42
  let xs := R.integersN 0 (w : ℤ) n s0
  let ys := R.integersN 0 (h : ℤ) n xs.2
  (xs.1.zip ys.1).map (fun p => ((p.1 : ℚ), (p.2 : ℚ)))

/-- The four very distant guard corners (far = max(w, h) * 4). -/
def guardCorners (w h : Nat) : List (ℚ × ℚ) :=
  [(-(max w h * 4 : ℚ), -(max w h * 4 : ℚ)),
   (-(max w h * 4 : ℚ), (max w h * 4 : ℚ) * 2),
   ((max w h * 4 : ℚ) * 2, -(max w h * 4 : ℚ)),
   ((max w h * 4 : ℚ) * 2, (max w h * 4 : ℚ) * 2)]

/-- Maximum of an integer list (its head for empty input; only applied to
nonempty vertex lists). -/
def listMax (l : List ℤ) : ℤ := l.foldl max (l.headD 0)

/-- Minimum of an integer list. -/
def listMin (l : List ℤ) : ℤ := l.foldl min (l.headD 0)

/-- Render one Voronoi cell onto the canvas: skip empty or unbounded
regions, clamp the vertices to the canvas, skip degenerate polygons,
average a patch around the clamped bounding-box centroid, fill, and
stroke the border when border_width is positive. -/
def renderCell (polyFill : Grid → List (ℚ × ℚ) → Rgb → Grid)
    (polyStroke : Grid → List (ℚ × ℚ) → Rgb → Nat → Grid)
    (src : Grid) (w h bw : Nat) (vor : VorDiagram)
    (canvas : Grid) (ridx : Nat) : Grid :=
  let region := vor.regions.getD ridx []
  if region = [] ∨ (-1 : ℤ) ∈ region then canvas
  else
    let clipped := (region.map (fun v => vor.vertices.getD v.toNat (0, 0))).map
      (fun p => (max 0 (min ((w : ℚ) - 1) p.1), max 0 (min ((h : ℚ) - 1) p.2)))
    if clipped.length < 3 then canvas
    else
      let xs := clipped.map (fun p => ⌊p.1⌋)
      let ys := clipped.map (fun p => ⌊p.2⌋)
      let cx := max 0 (min ((w : ℤ) - 1) (xs.sum.fdiv (xs.length : ℤ)))
      let cy := max 0 (min ((h : ℤ) - 1) (ys.sum.fdiv (ys.length : ℤ)))
      let rs := max 3 (min (min 20 ((listMax xs - listMin xs).fdiv 4))
        ((listMax ys - listMin ys).fdiv 4))
      let x0 := (max 0 (cx - rs)).toNat
      let x1 := (min (w : ℤ) (cx + rs)).toNat
      let y0 := (max 0 (cy - rs)).toNat
      let y1 := (min (h : ℤ) (cy + rs)).toNat
      if regionPixels src x0 y0 (x1 - x0) (y1 - y0) = [] then canvas
      else
        let c1 := polyFill canvas clipped (meanColor src x0 y0 (x1 - x0) (y1 - y0))
        if 0 < bw then polyStroke c1 clipped (20, 20, 20) bw else c1

/-- The full mosaic pipeline on the constrained working bitmap. -/
def mosaic {σ : Type} (R : RngModel σ) (V : List (ℚ × ℚ) → VorDiagram)
    (polyFill : Grid → List (ℚ × ℚ) → Rgb → Grid)
    (polyStroke : Grid → List (ℚ × ℚ) → Rgb → Nat → Grid)
    (src : Grid) (numCells bw : Nat) : Grid :=
  let w := width src
  let h := src.length
  let vor := V (mosaicSeeds R w h numCells ++ guardCorners w h)
  (vor.point_region.take numCells).foldl
    (renderCell polyFill polyStroke src w h bw vor)
    ((List.range h).map (fun _ => (List.range w).map (fun _ => ((0, 0, 0) : Rgb))))

/-- A mosaic invocation inside an environment carrying ambient global
random state (Python's random module state, type α): the source builds
its own generator from the constant seed 42 and neither reads nor writes
the ambient state, so an invocation returns it unchanged next to the
output bitmap and the seed placement it used. -/
def mosaicInvoke {σ α : Type} (R : RngModel σ) (V : List (ℚ × ℚ) → VorDiagram)
    (polyFill : Grid → List (ℚ × ℚ) → Rgb → Grid)
    (polyStroke : Grid → List (ℚ × ℚ) → Rgb → Nat → Grid)
    (src : Grid) (numCells bw : Nat) (amb : α) :
    (Grid × List (ℚ × ℚ)) × α :=
  ((mosaic R V polyFill polyStroke src numCells bw,
    mosaicSeeds R (width src) src.length numCells), amb)

/-! ## Buffer discipline (transforms.py, _constrain and glitch)

Object identity and in-place mutation are modelled with an explicit store
of pixel buffers and integer references into it. -/

/-- A store of pixel buffers. -/
abbrev Store := List Grid

/-- Buffer lookup. -/
def storeGet (s : Store) (r : Nat) : Grid := s.getD r []

/-- Allocate a fresh buffer holding g; returns the new store and the
fresh reference. -/
def alloc (s : Store) (g : Grid) : Store × Nat := (s ++ [g], s.length)

/-- _constrain in store-passing style: within the limit, image.copy()
allocates a fresh buffer with the same pixels; above it, a LANCZOS resize
(external primitive resizeL) to (int(w * ratio), int(h * ratio)) with
ratio = max_dim / max(size) allocates a fresh buffer.  The input buffer
is never written. -/
def constrainS (resizeL : Grid → Nat → Nat → Grid) (s : Store) (r : Nat)
    (maxDim : Nat) : Store × Nat :=
  if max (width (storeGet s r)) (storeGet s r).length ≤ maxDim then
    alloc s (storeGet s r)
  else
    alloc s (resizeL (storeGet s r)
      (⌊(width (storeGet s r) : ℚ) *
        ((maxDim : ℚ) / (max (width (storeGet s r)) (storeGet s r).length : ℚ))⌋).toNat
      (⌊((storeGet s r).length : ℚ) *
        ((maxDim : ℚ) / (max (width (storeGet s r)) (storeGet s r).length : ℚ))⌋).toNat)

/-- np.roll channel shift of glitch: red columns move right by k, blue
columns move left by k (cyclically, along axis 1). -/
def rollChannels (g : Grid) (k : ℤ) : Grid :=
  g.map (fun row =>
    (List.range row.length).map (fun j =>
      ((row.getD (((j : ℤ) - k).emod row.length).toNat (0, 0, 0)).1,
       (row.getD j (0, 0, 0)).2.1,
       (row.getD (((j : ℤ) + k).emod row.length).toNat (0, 0, 0)).2.2)))

/-- Columns x0 .. x0+len of a row (numpy slicing clamps silently). -/
def sliceCols (row : List Rgb) (x0 len : Nat) : List Rgb :=
  (row.drop x0).take len

/-- Overwrite columns starting at x0 with the given values. -/
def writeCols (row : List Rgb) (x0 : Nat) (vals : List Rgb) : List Rgb :=
  row.take x0 ++ vals ++ row.drop (x0 + vals.length)

/-- Apply f to the rows y0 .. y0+len of a grid. -/
def mapRows (g : Grid) (y0 len : Nat) (f : List Rgb → List Rgb) : Grid :=
  List.mapIdx (fun i row => if y0 ≤ i ∧ i < y0 + len then f row else row) g

/-- One block displacement of glitch: draw the block geometry and shift
from the generator, copy the block and paste it at the clamped shifted
column (all inside the working buffer). -/
def glitchBlock {σ : Type} (R : RngModel σ) (w h : Nat) (st : Grid × σ) :
    Grid × σ :=
  let bh := R.integers 2 (max 3 ((h : ℤ).fdiv 8)) st.2
  let bw := R.integers ((w : ℤ).fdiv 4) (w : ℤ) bh.2
  let y := R.integers 0 ((h : ℤ) - bh.1) bw.2
  let x := R.integers 0 (max 1 ((w : ℤ) - bw.1)) y.2
  let sh := R.integers ((-(w : ℤ)).fdiv 6) ((w : ℤ).fdiv 6) x.2
  let blockW := min (x.1.toNat + bw.1.toNat) w - x.1.toNat
  let xNew := (max 0 (min ((w : ℤ) - blockW) (x.1 + sh.1))).toNat
  (mapRows st.1 y.1.toNat bh.1.toNat
    (fun row => writeCols row xNew (sliceCols row x.1.toNat blockW)), sh.2)

/-- One scanline of glitch: rows y .. min(h, y + thickness) get a clipped
brightness boost. -/
def glitchLine {σ : Type} (R : RngModel σ) (w h : Nat) (st : Grid × σ) :
    Grid × σ :=
  let y := R.integers 0 (h : ℤ) st.2
  let th := R.integers 1 3 y.2
  let br := R.integers 0 40 th.2
  (mapRows st.1 y.1.toNat (min h (y.1.toNat + th.1.toNat) - y.1.toNat)
    (fun row => row.map (fun p =>
      (min 255 (p.1 + br.1.toNat), min 255 (p.2.1 + br.1.toNat),
        min 255 (p.2.2 + br.1.toNat)))), br.2)

/-- Iterate a state-threading step n times. -/
def iterRng {σ : Type} (f : Grid × σ → Grid × σ) : Nat → Grid × σ → Grid × σ
  | 0, st => st
  | n + 1, st => iterRng f n (f st)

/-- The in-place pixel pipeline of glitch on the working buffer: channel
roll by intensity * 3, intensity * 2 block displacements, intensity * 4
scanlines, all randomness drawn from default_rng(seed). -/
def glitchCore {σ : Type} (R : RngModel σ) (intensity seed : Nat) (g : Grid) :
    Grid :=
  (iterRng (glitchLine R (width g) g.length) (intensity * 4)
    (iterRng (glitchBlock R (width g) g.length) (intensity * 2)
      (rollChannels g (intensity * 3), R.init seed))).1

/-- glitch in store-passing style: np.array copies the input into a fresh
buffer, .copy() into a second fresh buffer, the pixel pipeline rewrites
only that second buffer in place, and Image.fromarray allocates the
output buffer.  The input buffer is never written. -/
def glitchS (core : Grid → Grid) (s : Store) (r : Nat) : Store × Nat :=
  let a1 := alloc s (storeGet s r)
  let a2 := alloc a1.1 (storeGet a1.1 a1.2)
  let s3 := a2.1.set a2.2 (core (storeGet a2.1 a2.2))
  alloc s3 (storeGet s3 a2.2)

/-- The full glitch transform over the store. -/
def glitch {σ : Type} (R : RngModel σ) (s : Store) (r : Nat)
    (intensity seed : Nat) : Store × Nat :=
  glitchS (glitchCore R intensity seed) s r

/-- A trivial generator model used to instantiate concrete witnesses. -/
def rngZero : RngModel Unit :=
  ⟨fun _ => (), fun _ _ _ => (0, ()), fun _ _ n _ => (List.replicate n 0, ())⟩

/- ===================== THEOREMS ===================== -/

/-- Unpacking of a false stopping condition: the std test failed, the
depth has not reached max_depth, and both dimensions are at least 4. -/
theorem leafCond_false {t : StdTest} {maxD x y bw bh d : Nat}
    (h : leafCond t maxD x y bw bh d = false) :
    t x y bw bh = false ∧ d < maxD ∧ 4 ≤ bw ∧ 4 ≤ bh := by
  simp only [leafCond, Bool.or_eq_false_iff, decide_eq_false_iff_not, not_le, not_lt] at h
  refine ⟨h.1.1, h.1.2, ?_, ?_⟩ <;> omega

/-- Considered regions never exceed the maximum depth. -/
theorem considered_depth_le {t : StdTest} {maxD w h x y bw bh d : Nat}
    (hc : Considered t maxD w h x y bw bh d) : d ≤ maxD := by
  induction hc with
  | root => omega
  | tl _ _ _ hf _ => exact (leafCond_false hf).2.1
  | tr _ _ _ hf _ => exact (leafCond_false hf).2.1
  | bl _ _ _ hf _ => exact (leafCond_false hf).2.1
  | br _ _ _ hf _ => exact (leafCond_false hf).2.1

/-- Every leaf emitted by the recursion from a considered region satisfies
the stopping rule at its own rectangle and depth, carries the floored mean
colour of its rectangle, is itself a considered region, and is nonempty. -/
theorem mem_splitGo_props (src : Grid) (t : StdTest) (maxD w h : Nat) :
    ∀ fuel x y bw bh d, Considered t maxD w h x y bw bh d →
      ∀ l ∈ splitGo src t maxD fuel x y bw bh d,
        leafCond t maxD l.x l.y l.bw l.bh l.depth = true ∧
        l.color = meanColor src l.x l.y l.bw l.bh ∧
        Considered t maxD w h l.x l.y l.bw l.bh l.depth ∧ 1 ≤ l.bw ∧ 1 ≤ l.bh := by
  intro fuel
  induction fuel with
  | zero => intro x y bw bh d _ l hl; simp [splitGo] at hl
  | succ fuel ih =>
    intro x y bw bh d hcons l hl
    simp only [splitGo] at hl
    by_cases h1 : bw < 1 ∨ bh < 1
    · rw [if_pos h1] at hl
      exact absurd hl (List.not_mem_nil l)
    · rw [if_neg h1] at hl
      cases h2 : leafCond t maxD x y bw bh d with
      | true =>
        rw [if_pos h2] at hl
        simp only [List.mem_singleton] at hl
        subst hl
        exact ⟨h2, rfl, hcons, by show 1 ≤ bw; omega, by show 1 ≤ bh; omega⟩
      | false =>
        have hbw : 1 ≤ bw := by omega
        have hbh : 1 ≤ bh := by omega
        rw [if_neg (by simp [h2])] at hl
        simp only [childRects, List.flatMap_cons, List.flatMap_nil, List.append_nil,
          List.mem_append] at hl
        rcases hl with hl | hl | hl | hl
        · exact ih _ _ _ _ _ (Considered.tl hcons hbw hbh h2) l hl
        · exact ih _ _ _ _ _ (Considered.tr hcons hbw hbh h2) l hl
        · exact ih _ _ _ _ _ (Considered.bl hcons hbw hbh h2) l hl
        · exact ih _ _ _ _ _ (Considered.br hcons hbw hbh h2) l hl

/-- The leaf list of a considered region is contained in the leaf list of
the whole canvas. -/
theorem splitGo_sub_root (src : Grid) (t : StdTest) (maxD w h : Nat) :
    ∀ x y bw bh d, Considered t maxD w h x y bw bh d →
      splitGo src t maxD (maxD + 1 - d) x y bw bh d ⊆ splitLeaves src t maxD w h := by
  have step : ∀ x y bw bh d, 1 ≤ bw → 1 ≤ bh → leafCond t maxD x y bw bh d = false →
      ∀ r ∈ childRects x y bw bh,
        splitGo src t maxD (maxD + 1 - (d + 1)) r.x r.y r.w r.h (d + 1) ⊆
          splitGo src t maxD (maxD + 1 - d) x y bw bh d := by
    intro x y bw bh d hbw hbh hcf r hr a ha
    have hd : d < maxD := (leafCond_false hcf).2.1
    rw [show maxD + 1 - d = (maxD + 1 - (d + 1)) + 1 by omega]
    simp only [splitGo, if_neg (show ¬(bw < 1 ∨ bh < 1) by omega), hcf,
      Bool.false_eq_true, if_false]
    exact List.mem_flatMap.mpr ⟨r, hr, ha⟩
  intro x y bw bh d hc
  induction hc with
  | root => simp [splitLeaves]
  | @tl x' y' bw' bh' d' hc hbw hbh hcf ih =>
    intro a ha
    exact ih (step x' y' bw' bh' d' hbw hbh hcf ⟨x', y', bw' / 2, bh' / 2⟩
      (by simp [childRects]) ha)
  | @tr x' y' bw' bh' d' hc hbw hbh hcf ih =>
    intro a ha
    exact ih (step x' y' bw' bh' d' hbw hbh hcf ⟨x' + bw' / 2, y', bw' - bw' / 2, bh' / 2⟩
      (by simp [childRects]) ha)
  | @bl x' y' bw' bh' d' hc hbw hbh hcf ih =>
    intro a ha
    exact ih (step x' y' bw' bh' d' hbw hbh hcf ⟨x', y' + bh' / 2, bw' / 2, bh' - bh' / 2⟩
      (by simp [childRects]) ha)
  | @br x' y' bw' bh' d' hc hbw hbh hcf ih =>
    intro a ha
    exact ih (step x' y' bw' bh' d' hbw hbh hcf
      ⟨x' + bw' / 2, y' + bh' / 2, bw' - bw' / 2, bh' - bh' / 2⟩
      (by simp [childRects]) ha)

/-- Every emitted leaf rectangle lies inside its originating region. -/
theorem splitGo_inside (src : Grid) (t : StdTest) (maxD : Nat) :
    ∀ fuel x y bw bh d, ∀ l ∈ splitGo src t maxD fuel x y bw bh d,
      x ≤ l.x ∧ l.x + l.bw ≤ x + bw ∧ y ≤ l.y ∧ l.y + l.bh ≤ y + bh := by
  intro fuel
  induction fuel with
  | zero => intro x y bw bh d l hl; simp [splitGo] at hl
  | succ fuel ih =>
    intro x y bw bh d l hl
    simp only [splitGo] at hl
    by_cases h1 : bw < 1 ∨ bh < 1
    · rw [if_pos h1] at hl
      exact absurd hl (List.not_mem_nil l)
    · rw [if_neg h1] at hl
      cases h2 : leafCond t maxD x y bw bh d with
      | true =>
        rw [if_pos h2] at hl
        simp only [List.mem_singleton] at hl
        subst hl
        refine ⟨le_refl _, ?_, le_refl _, ?_⟩ <;> simp
      | false =>
        rw [if_neg (by simp [h2])] at hl
        simp only [childRects, List.flatMap_cons, List.flatMap_nil, List.append_nil,
          List.mem_append] at hl
        rcases hl with hl | hl | hl | hl <;>
          · have h := ih _ _ _ _ _ l hl
            simp only [] at h
            omega

/-- A recursion on a region missing the point (px, py) contributes no leaf
containing it. -/
theorem splitGo_countP_zero (src : Grid) (t : StdTest) (maxD : Nat)
    (fuel x y bw bh d px py : Nat)
    (hmiss : px < x ∨ x + bw ≤ px ∨ py < y ∨ y + bh ≤ py) :
    (splitGo src t maxD fuel x y bw bh d).countP (fun l => leafContains l px py) = 0 := by
  rw [List.countP_eq_zero]
  intro l hl
  have h := splitGo_inside src t maxD fuel x y bw bh d l hl
  simp only [leafContains, decide_eq_true_eq, not_and, not_lt]
  omega

/-- Each point of a region ends up in exactly one emitted leaf, provided
the fuel respects the recursion invariant. -/
theorem splitGo_countP_one (src : Grid) (t : StdTest) (maxD : Nat) :
    ∀ fuel x y bw bh d px py, maxD + 1 ≤ fuel + d → d ≤ maxD →
      x ≤ px → px < x + bw → y ≤ py → py < y + bh →
      (splitGo src t maxD fuel x y bw bh d).countP (fun l => leafContains l px py) = 1 := by
  intro fuel
  induction fuel with
  | zero => intro x y bw bh d px py hfu hdm _ _ _ _; omega
  | succ fuel ih =>
    intro x y bw bh d px py hfu hdm hx1 hx2 hy1 hy2
    simp only [splitGo]
    rw [if_neg (by omega : ¬(bw < 1 ∨ bh < 1))]
    cases h2 : leafCond t maxD x y bw bh d with
    | true =>
      have hc : leafContains ⟨x, y, bw, bh, d, meanColor src x y bw bh⟩ px py = true := by
        simp only [leafContains, decide_eq_true_eq]
        omega
      simp [List.countP_cons, hc]
    | false =>
      rw [if_neg (by simp [h2])]
      have hd : d < maxD := (leafCond_false h2).2.1
      have hfu' : maxD + 1 ≤ fuel + (d + 1) := by omega
      have hdm' : d + 1 ≤ maxD := by omega
      simp only [childRects, List.flatMap_cons, List.flatMap_nil, List.append_nil,
        List.countP_append]
      by_cases hpx : px < x + bw / 2 <;> by_cases hpy : py < y + bh / 2
      · rw [ih x y (bw / 2) (bh / 2) (d + 1) px py hfu' hdm' (by omega) (by omega)
          (by omega) (by omega)]
        rw [splitGo_countP_zero src t maxD fuel _ _ _ _ _ px py (by omega)]
        rw [splitGo_countP_zero src t maxD fuel _ _ _ _ _ px py (by omega)]
        rw [splitGo_countP_zero src t maxD fuel _ _ _ _ _ px py (by omega)]
      · rw [ih x (y + bh / 2) (bw / 2) (bh - bh / 2) (d + 1) px py hfu' hdm' (by omega)
          (by omega) (by omega) (by omega)]
        rw [splitGo_countP_zero src t maxD fuel x y (bw / 2) (bh / 2) _ px py (by omega)]
        rw [splitGo_countP_zero src t maxD fuel (x + bw / 2) y (bw - bw / 2) (bh / 2) _
          px py (by omega)]
        rw [splitGo_countP_zero src t maxD fuel (x + bw / 2) (y + bh / 2) (bw - bw / 2)
          (bh - bh / 2) _ px py (by omega)]
      · rw [ih (x + bw / 2) y (bw - bw / 2) (bh / 2) (d + 1) px py hfu' hdm' (by omega)
          (by omega) (by omega) (by omega)]
        rw [splitGo_countP_zero src t maxD fuel x y (bw / 2) (bh / 2) _ px py (by omega)]
        rw [splitGo_countP_zero src t maxD fuel x (y + bh / 2) (bw / 2) (bh - bh / 2) _
          px py (by omega)]
        rw [splitGo_countP_zero src t maxD fuel (x + bw / 2) (y + bh / 2) (bw - bw / 2)
          (bh - bh / 2) _ px py (by omega)]
      · rw [ih (x + bw / 2) (y + bh / 2) (bw - bw / 2) (bh - bh / 2) (d + 1) px py hfu'
          hdm' (by omega) (by omega) (by omega) (by omega)]
        rw [splitGo_countP_zero src t maxD fuel x y (bw / 2) (bh / 2) _ px py (by omega)]
        rw [splitGo_countP_zero src t maxD fuel (x + bw / 2) y (bw - bw / 2) (bh / 2) _
          px py (by omega)]
        rw [splitGo_countP_zero src t maxD fuel x (y + bh / 2) (bw / 2) (bh - bh / 2) _
          px py (by omega)]

/-- Claim C2 (amended): in the quadtree decomposition a considered region
becomes a leaf exactly when its mean per-channel standard deviation is
below the threshold T, or its recursion depth has reached the maximum
depth, or either of its dimensions is below 4 pixels; and each leaf is
painted entirely with the floor (int() truncation) of the region's
per-channel mean colour.  (The original claim said the mean is rounded to
the nearest integer; the source truncates.) -/
theorem quadtree_leaf_characterization (src : Grid) (t : StdTest) (maxD w h : Nat)
    (T : ℝ) (hf : Faithful src t maxD w h T) :
    (∀ x y bw bh d, Considered t maxD w h x y bw bh d → 1 ≤ bw → 1 ≤ bh →
      ((∃ c, QLeaf.mk x y bw bh d c ∈ splitLeaves src t maxD w h) ↔
        (stdReal src x y bw bh < T ∨ maxD ≤ d ∨ min bw bh < 4))) ∧
    (∀ l ∈ splitLeaves src t maxD w h, l.color = meanColor src l.x l.y l.bw l.bh) := by
  constructor
  · intro x y bw bh d hcons hbw hbh
    constructor
    · rintro ⟨c, hm⟩
      have hp := mem_splitGo_props src t maxD w h (maxD + 1) 0 0 w h 0 Considered.root _ hm
      have hc := hp.1
      simp only [leafCond, Bool.or_eq_true, decide_eq_true_eq] at hc
      rcases hc with (ht | hd) | hm4
      · exact Or.inl ((hf x y bw bh d hcons).mp ht)
      · exact Or.inr (Or.inl hd)
      · exact Or.inr (Or.inr hm4)
    · intro hdis
      have hcond : leafCond t maxD x y bw bh d = true := by
        simp only [leafCond, Bool.or_eq_true, decide_eq_true_eq]
        rcases hdis with hs | hd | hm4
        · exact Or.inl (Or.inl ((hf x y bw bh d hcons).mpr hs))
        · exact Or.inl (Or.inr hd)
        · exact Or.inr hm4
      refine ⟨meanColor src x y bw bh, ?_⟩
      apply splitGo_sub_root src t maxD w h x y bw bh d hcons
      have hdle : d ≤ maxD := considered_depth_le hcons
      rw [show maxD + 1 - d = (maxD - d) + 1 by omega]
      simp only [splitGo]
      rw [if_neg (by omega : ¬(bw < 1 ∨ bh < 1)), if_pos hcond]
      exact List.mem_singleton.mpr rfl
  · intro l hl
    exact (mem_splitGo_props src t maxD w h (maxD + 1) 0 0 w h 0 Considered.root l hl).2.1

/-- Witness for C2: on a flat 2 by 2 bitmap with the constant-true std
test (faithful because every considered region has zero variance), the
root region is a leaf (its min dimension is below 4), painted with some
colour. -/
theorem quadtree_leaf_characterization_witness :
    ∃ c, QLeaf.mk 0 0 2 2 0 c ∈ splitLeaves imgFlat2 ctTrue 6 2 2 := by
  have hf : Faithful imgFlat2 ctTrue 6 2 2 15 := by
    intro x y bw bh d hcons
    constructor
    · intro _
      cases hcons with
      | root =>
        have h1 : qVar (redsQ (regionPixels imgFlat2 0 0 2 2)) = 0 := by
          norm_num [qVar, qMean, redsQ, regionPixels, imgFlat2]
        have h2 : qVar (greensQ (regionPixels imgFlat2 0 0 2 2)) = 0 := by
          norm_num [qVar, qMean, greensQ, regionPixels, imgFlat2]
        have h3 : qVar (bluesQ (regionPixels imgFlat2 0 0 2 2)) = 0 := by
          norm_num [qVar, qMean, bluesQ, regionPixels, imgFlat2]
        simp only [stdReal, h1, h2, h3]
        norm_num
      | tl hc hbw hbh hcf => exact absurd (leafCond_false hcf).1 (by simp [ctTrue])
      | tr hc hbw hbh hcf => exact absurd (leafCond_false hcf).1 (by simp [ctTrue])
      | bl hc hbw hbh hcf => exact absurd (leafCond_false hcf).1 (by simp [ctTrue])
      | br hc hbw hbh hcf => exact absurd (leafCond_false hcf).1 (by simp [ctTrue])
    · intro _
      rfl
  exact ((quadtree_leaf_characterization imgFlat2 ctTrue 6 2 2 15 hf).1 0 0 2 2 0
    Considered.root (by omega) (by omega)).mpr (Or.inr (Or.inr (by omega)))

/-- Counterexample to claim C2 as stated: on a concrete 2 by 2 bitmap with
per-channel mean 3/4 the painted leaf colour is the truncated mean
(0,0,0), while nearest-integer rounding of the mean gives (1,1,1); the std
test shown is faithful for the threshold 15, so the instance satisfies all
of the claim's premises. -/
theorem quadtree_round_color_counterexample :
    Faithful img4 ctTrue 6 2 2 15 ∧
    splitLeaves img4 ctTrue 6 2 2 = [QLeaf.mk 0 0 2 2 0 (0, 0, 0)] ∧
    roundMeanColor img4 0 0 2 2 = (1, 1, 1) ∧ ((0, 0, 0) : Rgb) ≠ (1, 1, 1) := by
  refine ⟨?_, by decide, ?roundgoal, by decide⟩
  case roundgoal =>
    norm_num [roundMeanColor, roundNearest, qMean, redsQ, greensQ, bluesQ,
      regionPixels, img4]
  intro x y bw bh d hcons
  constructor
  · intro _
    cases hcons with
    | root =>
      have h1 : qVar (redsQ (regionPixels img4 0 0 2 2)) = 27 / 16 := by
        norm_num [qVar, qMean, redsQ, regionPixels, img4]
      have h2 : qVar (greensQ (regionPixels img4 0 0 2 2)) = 27 / 16 := by
        norm_num [qVar, qMean, greensQ, regionPixels, img4]
      have h3 : qVar (bluesQ (regionPixels img4 0 0 2 2)) = 27 / 16 := by
        norm_num [qVar, qMean, bluesQ, regionPixels, img4]
      simp only [stdReal, h1, h2, h3]
      have hs : ((((27 : ℚ) / 16 : ℚ) : ℝ)) = (27 / 16 : ℝ) := by push_cast; ring
      rw [hs]
      have heq : (Real.sqrt (27 / 16) + Real.sqrt (27 / 16) + Real.sqrt (27 / 16)) / 3 =
          Real.sqrt (27 / 16) := by ring
      rw [heq]
      rw [Real.sqrt_lt' (by norm_num : (0:ℝ) < 15)]
      norm_num
    | tl hc hbw hbh hcf => exact absurd (leafCond_false hcf).1 (by simp [ctTrue])
    | tr hc hbw hbh hcf => exact absurd (leafCond_false hcf).1 (by simp [ctTrue])
    | bl hc hbw hbh hcf => exact absurd (leafCond_false hcf).1 (by simp [ctTrue])
    | br hc hbw hbh hcf => exact absurd (leafCond_false hcf).1 (by simp [ctTrue])
  · intro _
    rfl

/-- Claim C5: whenever a region is split its four child rectangles
partition the parent exactly (no gap, no overlap, widths and heights
summing to the parent's), and the union of all leaf rectangles tiles the
full canvas with no gaps or overlaps (each canvas point is inside exactly
one leaf). -/
theorem quadtree_children_partition_and_tile (src : Grid) (t : StdTest) (maxD : Nat) :
    (∀ fuel x y bw bh d, 1 ≤ bw → 1 ≤ bh → leafCond t maxD x y bw bh d = false →
      splitGo src t maxD (fuel + 1) x y bw bh d =
        (childRects x y bw bh).flatMap
          (fun r => splitGo src t maxD fuel r.x r.y r.w r.h (d + 1))) ∧
    (∀ x y bw bh, ((childRects x y bw bh).getD 0 ⟨0,0,0,0⟩).w +
        ((childRects x y bw bh).getD 1 ⟨0,0,0,0⟩).w = bw ∧
      ((childRects x y bw bh).getD 2 ⟨0,0,0,0⟩).w +
        ((childRects x y bw bh).getD 3 ⟨0,0,0,0⟩).w = bw ∧
      ((childRects x y bw bh).getD 0 ⟨0,0,0,0⟩).h +
        ((childRects x y bw bh).getD 2 ⟨0,0,0,0⟩).h = bh ∧
      ((childRects x y bw bh).getD 1 ⟨0,0,0,0⟩).h +
        ((childRects x y bw bh).getD 3 ⟨0,0,0,0⟩).h = bh) ∧
    (∀ x y bw bh px py, x ≤ px → px < x + bw → y ≤ py → py < y + bh →
      (childRects x y bw bh).countP (fun r => containsR r px py) = 1) ∧
    (∀ w h px py, px < w → py < h →
      (splitLeaves src t maxD w h).countP (fun l => leafContains l px py) = 1) := by
  refine ⟨?_, ?_, ?_, ?_⟩
  · intro fuel x y bw bh d hbw hbh hcf
    simp only [splitGo]
    rw [if_neg (by omega : ¬(bw < 1 ∨ bh < 1)), if_neg (by simp [hcf])]
  · intro x y bw bh
    simp only [childRects, List.getD]
    refine ⟨?_, ?_, ?_, ?_⟩ <;> simp <;> omega
  · intro x y bw bh px py hx1 hx2 hy1 hy2
    simp only [childRects, List.countP_cons, List.countP_nil, containsR,
      decide_eq_true_eq]
    split_ifs <;> omega
  · intro w h px py hx hy
    exact splitGo_countP_one src t maxD (maxD + 1) 0 0 w h 0 px py (by omega) (by omega)
      (by omega) (by omega) (by omega) (by omega)

/-- Witness for C5: on a concrete flat bitmap the canvas point (1, 0) lies
in exactly one leaf of the decomposition, and a concrete parent point lies
in exactly one child rectangle. -/
theorem quadtree_children_partition_and_tile_witness :
    (splitLeaves imgFlat2 ctTrue 6 2 2).countP (fun l => leafContains l 1 0) = 1 ∧
    (childRects 0 0 8 8).countP (fun r => containsR r 3 5) = 1 := by
  constructor
  · exact (quadtree_children_partition_and_tile imgFlat2 ctTrue 6).2.2.2 2 2 1 0
      (by omega) (by omega)
  · exact (quadtree_children_partition_and_tile imgFlat2 ctTrue 6).2.2.1 0 0 8 8 3 5
      (by omega) (by omega) (by omega) (by omega)

/-- Counterexample to claim C3 as stated: posterize with the out-of-range
level_count -1 does not fail at all - it silently produces an output
bitmap (a 1 by 1 input comes back as the corrupt value 128 per channel),
so out-of-range parameters are not rejected at the function boundary. -/
theorem posterize_invalid_levels_counterexample :
    posterize (fun _ g => g) [[(10, 10, 10)]] (-1) 1 =
      Except.ok [[(128, 128, 128)]] := by
  norm_num [posterize, posterizeChan]
  decide

/-- Claim C3 (amended): the transforms perform no invalid-parameter
validation at the function boundary.  A zero level_count or block_size
surfaces as an unhandled ZeroDivisionError from the division itself (not
a clear invalid-parameter condition, and in the source only after
_constrain has already processed the bitmap), while any non-zero
level_count - including negative, out-of-range values - produces an
output bitmap with no failure at all. -/
theorem no_boundary_validation (e : ℚ → Grid → Grid)
    (rb rn : Grid → Nat → Nat → Grid) (qp : Nat → Grid → Grid)
    (g : Grid) (sat : ℚ) (nc : ℤ) :
    posterize e g 0 sat = Except.error "ZeroDivisionError" ∧
    pixelate rb rn qp g 0 nc = Except.error "ZeroDivisionError" ∧
    (∀ l : ℤ, l ≠ 0 → ∃ out, posterize e g l sat = Except.ok out) := by
  refine ⟨by simp [posterize], by simp [pixelate], ?_⟩
  intro l hl
  simp only [posterize, if_neg hl]
  exact ⟨_, rfl⟩

/-- Witness for the amended C3: the concrete instance evaluates as the
theorem states, including a successful run at the invalid level count -2. -/
theorem no_boundary_validation_witness :
    posterize (fun _ g => g) [[(0, 0, 0)]] 0 1 = Except.error "ZeroDivisionError" ∧
    (∃ out, posterize (fun _ g => g) [[(0, 0, 0)]] (-2) 1 = Except.ok out) := by
  have h := no_boundary_validation (fun _ g => g) (fun g _ _ => g) (fun g _ _ => g)
    (fun _ g => g) [[(0, 0, 0)]] 1 16
  exact ⟨h.1, h.2.2 (-2) (by norm_num)⟩

/-- Counting a colour adds exactly one to the total tally. -/
theorem bump_sumCounts (acc : List (Rgb × Nat)) (p : Rgb) :
    sumCounts (bump acc p) = sumCounts acc + 1 := by
  induction acc with
  | nil => simp [bump, sumCounts]
  | cons a rest ih =>
    obtain ⟨q, c⟩ := a
    by_cases h : q = p
    · simp [bump, h, sumCounts]
      omega
    · simp [bump, h, sumCounts] at ih ⊢
      omega

/-- The tally's counts sum to the number of pixels counted. -/
theorem tally_sumCounts (ps : List Rgb) : sumCounts (tally ps) = ps.length := by
  suffices h : ∀ acc, sumCounts (ps.foldl bump acc) = sumCounts acc + ps.length by
    simpa [tally, sumCounts] using h []
  induction ps with
  | nil => intro acc; simp
  | cons p ps ih =>
    intro acc
    simp only [List.foldl_cons, ih, bump_sumCounts, List.length_cons]
    omega

/-- Stable descending insertion is a permutation of consing. -/
theorem insertDesc_perm (x : Rgb × Nat) (l : List (Rgb × Nat)) :
    List.Perm (insertDesc x l) (x :: l) := by
  induction l with
  | nil => exact List.Perm.refl _
  | cons y ys ih =>
    by_cases h : y.2 ≤ x.2
    · simp [insertDesc, h]
    · simp only [insertDesc, if_neg h]
      exact (ih.cons y).trans (List.Perm.swap x y ys)

/-- The descending sort is a permutation of its input. -/
theorem sortDesc_perm (l : List (Rgb × Nat)) : List.Perm (sortDesc l) l := by
  induction l with
  | nil => exact List.Perm.refl _
  | cons a l ih => exact (insertDesc_perm a (sortDesc l)).trans (ih.cons a)

/-- Inserting into a list with non-increasing counts keeps the counts
non-increasing. -/
theorem insertDesc_pairwise (x : Rgb × Nat) (l : List (Rgb × Nat))
    (h : List.Pairwise (fun a b => b.2 ≤ a.2) l) :
    List.Pairwise (fun a b => b.2 ≤ a.2) (insertDesc x l) := by
  induction l with
  | nil => simp [insertDesc]
  | cons y ys ih =>
    rcases h with _ | ⟨hy, hys⟩
    by_cases hle : y.2 ≤ x.2
    · simp only [insertDesc, if_pos hle]
      refine List.Pairwise.cons ?_ (List.Pairwise.cons hy hys)
      intro z hz
      rcases List.mem_cons.mp hz with hz | hz
      · subst hz
        omega
      · have := hy z hz
        omega
    · simp only [insertDesc, if_neg hle]
      refine List.Pairwise.cons ?_ (ih hys)
      intro z hz
      rcases List.mem_cons.mp ((insertDesc_perm x ys).mem_iff.mp hz) with hz | hz
      · subst hz
        omega
      · exact hy z hz

/-- The descending sort produces non-increasing counts. -/
theorem sortDesc_pairwise (l : List (Rgb × Nat)) :
    List.Pairwise (fun a b => b.2 ≤ a.2) (sortDesc l) := by
  induction l with
  | nil => simp [sortDesc]
  | cons a l ih => exact insertDesc_pairwise a (sortDesc l) ih

/-- Claim C6: when the quantized working bitmap carries at most n_colors
distinct colours (the contract of quantize(colors=n)), the returned
palette's pixel counts sum exactly to the working bitmap's total pixel
count, and the entries are ordered by non-increasing pixel count. -/
theorem extract_palette_counts (q : Grid) (n : Nat)
    (hn : (tally q.flatten).length ≤ n) :
    sumCounts (extract_palette q n) = q.flatten.length ∧
    List.Pairwise (fun a b => b.2 ≤ a.2) (extract_palette q n) := by
  constructor
  · have hlen : (sortDesc (tally q.flatten)).length ≤ n := by
      rw [(sortDesc_perm _).length_eq]
      exact hn
    rw [extract_palette, List.take_of_length_le hlen]
    have hperm := (sortDesc_perm (tally q.flatten)).map (fun x => x.2)
    unfold sumCounts
    rw [hperm.sum_eq]
    exact tally_sumCounts q.flatten
  · exact List.Pairwise.sublist (List.take_sublist n _)
      (sortDesc_pairwise (tally q.flatten))

/-- Witness for C6: the palette of a concrete 2 by 2 two-colour bitmap
sums to 4 pixels and is sorted by non-increasing count. -/
theorem extract_palette_counts_witness :
    sumCounts (extract_palette imgPal 6) = imgPal.flatten.length ∧
    List.Pairwise (fun a b => b.2 ≤ a.2) (extract_palette imgPal 6) :=
  extract_palette_counts imgPal 6 (by decide)

/-- min_size is monotone in the percentage parameter. -/
theorem minSizeOf_mono (total : Nat) {p1 p2 : ℚ} (hp : p1 ≤ p2) :
    minSizeOf total p1 ≤ minSizeOf total p2 := by
  unfold minSizeOf
  have h1 : (total : ℚ) * p1 / 100 ≤ (total : ℚ) * p2 / 100 := by
    apply div_le_div_of_nonneg_right ?_ (by norm_num)
    exact mul_le_mul_of_nonneg_left hp (by positivity)
  have h2 := Int.floor_le_floor h1
  have h3 := Int.toNat_le_toNat h2
  omega

/-- Raising the size cutoff can only shrink the filtered component list. -/
theorem filter_length_antitone (L : List (List Pos)) {m1 m2 : Nat} (hm : m1 ≤ m2) :
    (L.filter (fun c => m2 ≤ c.length)).length ≤
    (L.filter (fun c => m1 ≤ c.length)).length := by
  induction L with
  | nil => simp
  | cons c L ih =>
    by_cases h2 : m2 ≤ c.length
    · have h1 : m1 ≤ c.length := le_trans hm h2
      simp only [List.filter_cons, decide_eq_true_eq, if_pos h2, if_pos h1,
        List.length_cons]
      omega
    · by_cases h1 : m1 ≤ c.length
      · simp only [List.filter_cons, decide_eq_true_eq, if_neg h2, if_pos h1,
          List.length_cons]
        omega
      · simp only [List.filter_cons, decide_eq_true_eq, if_neg h2, if_neg h1]
        exact ih

/-- Claim C7: for a fixed quantized working bitmap the number of labels
placed is a non-increasing function of min_region_percent. -/
theorem label_count_antitone (q : Grid) (w h : Nat) {p1 p2 : ℚ} (hp : p1 ≤ p2) :
    (stampsOf q w h p2).length ≤ (stampsOf q w h p1).length := by
  unfold stampsOf
  induction List.range (uniqueColors q).length with
  | nil => simp
  | cons k ks ih =>
    simp only [List.flatMap_cons, List.length_append, List.length_map]
    have := filter_length_antitone (componentsOf (cellsOf q w h (k + 1)))
      (minSizeOf_mono (h * w) hp)
    omega

/-- Witness for C7: on the concrete 4 by 5 bitmap, raising the percentage
from 0 to 50 does not increase the label count. -/
theorem label_count_antitone_witness :
    (stampsOf img20 5 4 50).length ≤ (stampsOf img20 5 4 0).length :=
  label_count_antitone img20 5 4 (by norm_num)

/-- Claim C9: the effective minimum labelled-region size is
max(20, floor(total_pixels * min_region_percent / 100)); every placed
label comes from a component whose pixel count reaches that bound, and
with min_region_percent = 0 every labelled component has at least 20
pixels, so smaller components are never labelled. -/
theorem effective_min_label_size (q : Grid) (w h : Nat) (pct : ℚ) :
    minSizeOf (h * w) pct = max 20 (Int.toNat ⌊((h * w : Nat) : ℚ) * pct / 100⌋) ∧
    (∀ s ∈ stampsOf q w h pct, ∃ cidx comp,
      comp ∈ componentsOf (cellsOf q w h cidx) ∧
      minSizeOf (h * w) pct ≤ comp.length ∧ s = (cidx, anchorOf comp)) ∧
    (∀ s ∈ stampsOf q w h 0, ∃ cidx comp,
      comp ∈ componentsOf (cellsOf q w h cidx) ∧ 20 ≤ comp.length ∧
      s = (cidx, anchorOf comp)) := by
  have hmem : ∀ (p : ℚ), ∀ s ∈ stampsOf q w h p, ∃ cidx comp,
      comp ∈ componentsOf (cellsOf q w h cidx) ∧
      minSizeOf (h * w) p ≤ comp.length ∧ s = (cidx, anchorOf comp) := by
    intro p s hs
    simp only [stampsOf, List.mem_flatMap, List.mem_map, List.mem_filter,
      List.mem_range, decide_eq_true_eq] at hs
    obtain ⟨k, _, comp, ⟨hcm, hsize⟩, hs⟩ := hs
    exact ⟨k + 1, comp, hcm, hsize, hs.symm⟩
  refine ⟨rfl, hmem pct, ?_⟩
  intro s hs
  obtain ⟨cidx, comp, hcm, hsize, hs⟩ := hmem 0 s hs
  refine ⟨cidx, comp, hcm, ?_, hs⟩
  have h0 : minSizeOf (h * w) 0 = 20 := by
    norm_num [minSizeOf]
  omega

/-- Witness for C9: on the concrete 4 by 5 single-colour bitmap the one
label placed at percentage 0 comes from a component of at least 20
pixels. -/
theorem effective_min_label_size_witness :
    ∃ cidx comp, comp ∈ componentsOf (cellsOf img20 5 4 cidx) ∧
      20 ≤ comp.length ∧ ((1, (1, 2)) : Nat × Pos) = (cidx, anchorOf comp) := by
  refine (effective_min_label_size img20 5 4 0).2.2 (1, (1, 2)) ?_
  have h20 : minSizeOf (4 * 5) 0 = 20 := by norm_num [minSizeOf]
  simp only [stampsOf, h20]
  decide

/-- Boolean membership agrees with list membership for positions. -/
theorem pos_contains_iff {l : List Pos} {p : Pos} : l.contains p = true ↔ p ∈ l := by
  simp

/-- A growth step only adds cells from the cell list. -/
theorem growStep_mem {cells comp : List Pos} {z : Pos} (hz : z ∈ growStep cells comp) :
    z ∈ comp ∨ z ∈ cells := by
  simp only [growStep, List.mem_append, List.mem_filter] at hz
  rcases hz with hz | ⟨hz, _⟩
  · exact Or.inl hz
  · exact Or.inr hz

/-- A growth step keeps the collected component. -/
theorem growStep_superset {cells comp : List Pos} : comp ⊆ growStep cells comp :=
  List.subset_append_left _ _

/-- Iterated growth only adds cells from the cell list. -/
theorem growN_mem {cells : List Pos} :
    ∀ n (comp : List Pos) z, z ∈ growN cells n comp → z ∈ comp ∨ z ∈ cells := by
  intro n
  induction n with
  | zero => intro comp z hz; exact Or.inl hz
  | succ n ih =>
    intro comp z hz
    rcases ih _ z hz with h | h
    · exact growStep_mem h
    · exact Or.inr h

/-- Iterated growth keeps the collected component. -/
theorem growN_superset {cells : List Pos} :
    ∀ n (comp : List Pos), comp ⊆ growN cells n comp := by
  intro n
  induction n with
  | zero => intro comp; exact fun z hz => hz
  | succ n ih => intro comp; exact fun z hz => ih _ (growStep_superset hz)

/-- The flood component contains its start. -/
theorem flood_start_mem (cells : List Pos) (c : Pos) : c ∈ flood cells c :=
  growN_superset _ _ (List.mem_singleton_self c)

/-- The flood component is contained in the start plus the cell list. -/
theorem flood_subset (cells : List Pos) (c : Pos) :
    ∀ z ∈ flood cells c, z ∈ c :: cells := by
  intro z hz
  rcases growN_mem _ _ _ hz with h | h
  · simp only [List.mem_singleton] at h
    subst h
    exact List.mem_cons_self _ _
  · exact List.mem_cons_of_mem _ h

/-- Every discovered component is the flood of one of the cells. -/
theorem componentsOf_mem {cells : List Pos} {comp : List Pos}
    (h : comp ∈ componentsOf cells) : ∃ c ∈ cells, comp = flood cells c := by
  suffices haux : ∀ (l : List Pos) (acc : List (List Pos)),
      comp ∈ l.foldl (fun acc c =>
        if acc.any (fun comp => comp.contains c) then acc
        else acc ++ [flood cells c]) acc →
      comp ∈ acc ∨ ∃ c ∈ l, comp = flood cells c by
    rcases haux cells [] h with hin | hin
    · exact absurd hin (List.not_mem_nil comp)
    · exact hin
  intro l
  induction l with
  | nil => intro acc hin; exact Or.inl hin
  | cons c l ih =>
    intro acc hin
    simp only [List.foldl_cons] at hin
    by_cases hc : (acc.any (fun comp => comp.contains c)) = true
    · rw [if_pos hc] at hin
      rcases ih acc hin with hin | ⟨c', hc', he⟩
      · exact Or.inl hin
      · exact Or.inr ⟨c', List.mem_cons_of_mem _ hc', he⟩
    · rw [if_neg hc] at hin
      rcases ih _ hin with hin | ⟨c', hc', he⟩
      · rcases List.mem_append.mp hin with hin | hin
        · exact Or.inl hin
        · simp only [List.mem_singleton] at hin
          exact Or.inr ⟨c, List.mem_cons_self _ _, hin⟩
      · exact Or.inr ⟨c', List.mem_cons_of_mem _ hc', he⟩

/-- Stable insertion of a position is a permutation of consing. -/
theorem insertPos_perm (x : Pos) (l : List Pos) :
    List.Perm (insertPos x l) (x :: l) := by
  induction l with
  | nil => exact List.Perm.refl _
  | cons y ys ih =>
    by_cases h : posLexLe x y
    · simp [insertPos, h]
    · simp only [insertPos, if_neg h]
      exact (ih.cons y).trans (List.Perm.swap x y ys)

/-- The row-major sort is a permutation of its input. -/
theorem sortPos_perm (l : List Pos) : List.Perm (sortPos l) l := by
  induction l with
  | nil => exact List.Perm.refl _
  | cons a l ih => exact (insertPos_perm a (sortPos l)).trans (ih.cons a)

/-- The first minimiser belongs to the list. -/
theorem argminFirst_mem (f : Pos → ℤ) :
    ∀ (l : List Pos) (p : Pos), argminFirst f l = some p → p ∈ l := by
  intro l
  induction l with
  | nil => intro p hp; simp [argminFirst] at hp
  | cons a l ih =>
    intro p hp
    simp only [argminFirst] at hp
    cases hrec : argminFirst f l with
    | none =>
      rw [hrec] at hp
      simp only [Option.some.injEq] at hp
      subst hp
      exact List.mem_cons_self _ _
    | some q =>
      rw [hrec] at hp
      dsimp only at hp
      by_cases hle : f a ≤ f q
      · rw [if_pos hle] at hp
        simp only [Option.some.injEq] at hp
        subst hp
        exact List.mem_cons_self _ _
      · rw [if_neg hle] at hp
        simp only [Option.some.injEq] at hp
        subst hp
        exact List.mem_cons_of_mem _ (ih q hrec)

/-- On a nonempty list the first minimiser exists. -/
theorem argminFirst_isSome (f : Pos → ℤ) :
    ∀ {l : List Pos}, l ≠ [] → ∃ p, argminFirst f l = some p := by
  intro l hl
  cases l with
  | nil => exact absurd rfl hl
  | cons a l =>
    simp only [argminFirst]
    cases hrec : argminFirst f l with
    | none => exact ⟨a, rfl⟩
    | some q =>
      dsimp only
      by_cases hle : f a ≤ f q
      · exact ⟨a, by rw [if_pos hle]⟩
      · exact ⟨q, by rw [if_neg hle]⟩

/-- The label anchor of a nonempty component belongs to the component. -/
theorem anchorOf_mem {comp : List Pos} (hne : comp ≠ []) : anchorOf comp ∈ comp := by
  unfold anchorOf
  by_cases hc : (comp.contains
      (((sortPos comp).map (fun p => p.1)).sum / comp.length,
        ((sortPos comp).map (fun p => p.2)).sum / comp.length)) = true
  · rw [if_pos hc]
    exact pos_contains_iff.mp hc
  · rw [if_neg hc]
    have hsne : sortPos comp ≠ [] := by
      intro hcon
      exact hne (List.Perm.eq_nil (hcon ▸ (sortPos_perm comp).symm))
    obtain ⟨p, hp⟩ := argminFirst_isSome _ hsne
    rw [hp]
    exact (sortPos_perm comp).subset (argminFirst_mem _ _ _ hp)

/-- When the index of a colour is within bounds, reading the list there
gives the colour back. -/
theorem idxOf_getD {a : Rgb} : ∀ {l : List Rgb}, idxOf a l < l.length →
    l.getD (idxOf a l) (0, 0, 0) = a := by
  intro l
  induction l with
  | nil => intro hlt; simp [idxOf] at hlt
  | cons b l ih =>
    intro hlt
    by_cases hba : b = a
    · simp [idxOf, hba]
    · simp only [idxOf, if_neg hba, List.length_cons] at hlt ⊢
      rw [List.getD_cons_succ]
      exact ih (by omega)

/-- Membership in the cell list of a colour index. -/
theorem mem_cellsOf {q : Grid} {w h cidx : Nat} {p : Pos} :
    p ∈ cellsOf q w h cidx ↔ p.1 < h ∧ p.2 < w ∧ colorMap q p.1 p.2 = cidx := by
  obtain ⟨i, j⟩ := p
  simp only [cellsOf, List.mem_flatMap, List.mem_filterMap, List.mem_range]
  constructor
  · rintro ⟨i', hi', j', hj', he⟩
    by_cases hcm : colorMap q i' j' = cidx
    · rw [if_pos hcm] at he
      simp only [Option.some.injEq, Prod.mk.injEq] at he
      obtain ⟨rfl, rfl⟩ := he
      exact ⟨hi', hj', hcm⟩
    · rw [if_neg hcm] at he
      exact absurd he (Option.noConfusion)
  · rintro ⟨hi, hj, hcm⟩
    exact ⟨i, hi, j, hj, by rw [if_pos hcm]⟩

/-- Claim C10: every label stamped by paint-by-number carries exactly the
number paired in the returned palette with the quantized colour of the
pixel it is stamped on: a stamp (n, p) has its anchor pixel p inside its
own component, and (n, colour at p) is a palette entry. -/
theorem stamp_number_matches_palette (q : Grid) (w h : Nat) (pct : ℚ) :
    ∀ n p, (n, p) ∈ stampsOf q w h pct → (n, getPix q p.1 p.2) ∈ paletteOf q := by
  intro n p hs
  simp only [stampsOf, List.mem_flatMap, List.mem_map, List.mem_filter,
    List.mem_range, decide_eq_true_eq] at hs
  obtain ⟨k, hk, comp, ⟨hcm, hsize⟩, hs⟩ := hs
  injection hs with hn hp
  subst hn
  subst hp
  obtain ⟨c, hcc, hcomp⟩ := componentsOf_mem hcm
  have hne : comp ≠ [] := by
    intro hnil
    have hst := flood_start_mem (cellsOf q w h (k + 1)) c
    rw [← hcomp, hnil] at hst
    exact List.not_mem_nil _ hst
  have hanch : anchorOf comp ∈ comp := anchorOf_mem hne
  have hcell : anchorOf comp ∈ cellsOf q w h (k + 1) := by
    have hmem : anchorOf comp ∈ c :: cellsOf q w h (k + 1) :=
      flood_subset (cellsOf q w h (k + 1)) c _ (hcomp ▸ hanch)
    rcases List.mem_cons.mp hmem with hme | hme
    · rw [hme]
      exact hcc
    · exact hme
  have hcm2 : colorMap q (anchorOf comp).1 (anchorOf comp).2 = k + 1 :=
    (mem_cellsOf.mp hcell).2.2
  have hidx : idxOf (getPix q (anchorOf comp).1 (anchorOf comp).2)
      (uniqueColors q) = k := by
    simpa [colorMap] using hcm2
  have hklen : k < (uniqueColors q).length := hk
  have hget : (uniqueColors q).getD k (0, 0, 0) =
      getPix q (anchorOf comp).1 (anchorOf comp).2 := by
    rw [← hidx]
    exact idxOf_getD (hidx ▸ hklen)
  simp only [paletteOf, List.mem_map, List.mem_range]
  exact ⟨k, hklen, by rw [hget]⟩

/-- Witness for C10: the one stamp on the concrete 4 by 5 bitmap pairs
label number 1 with the colour of its anchor pixel in the palette. -/
theorem stamp_number_matches_palette_witness :
    ((1, getPix img20 1 2) : Nat × Rgb) ∈ paletteOf img20 := by
  refine stamp_number_matches_palette img20 5 4 0 1 (1, 2) ?_
  have h20 : minSizeOf (4 * 5) 0 = 20 := by norm_num [minSizeOf]
  simp only [stampsOf, h20]
  decide

/-- Reading a mapped range list. -/
theorem getD_map_range {α} (f : Nat → α) (n i : Nat) (d : α) :
    ((List.range n).map f).getD i d = if i < n then f i else d := by
  by_cases hi : i < n
  · rw [if_pos hi, List.getD_eq_getElem?_getD, List.getElem?_map,
      List.getElem?_range hi]
    rfl
  · rw [if_neg hi, List.getD_eq_getElem?_getD, List.getElem?_map,
      List.getElem?_eq_none (by simpa using hi)]
    rfl

/-- Every pixel of the outline bitmap before stamping is black or white. -/
theorem outlineBase_pix (q : Grid) (w h i j : Nat) :
    getPix (outlineBase q w h) i j = (0, 0, 0) ∨
    getPix (outlineBase q w h) i j = (255, 255, 255) := by
  unfold getPix outlineBase
  rw [getD_map_range]
  by_cases hi : i < h
  · rw [if_pos hi, getD_map_range]
    by_cases hj : j < w
    · rw [if_pos hj]
      by_cases hb : isBoundary q w h i j
      · rw [if_pos hb]
        exact Or.inl rfl
      · rw [if_neg hb]
        exact Or.inr rfl
    · rw [if_neg hj]
      exact Or.inl rfl
  · rw [if_neg hi]
    exact Or.inl rfl

/-- Reading a list after a point update. -/
theorem getD_set_general {α} (l : List α) (n i : Nat) (a d : α) :
    (l.set n a).getD i d = if i = n ∧ n < l.length then a else l.getD i d := by
  rw [List.getD_eq_getElem?_getD, List.getD_eq_getElem?_getD, List.getElem?_set]
  by_cases he : n = i
  · subst he
    by_cases hlt : n < l.length
    · simp [hlt]
    · rw [if_pos rfl, if_neg hlt, if_neg (by omega : ¬(n = n ∧ n < l.length)),
        List.getElem?_eq_none (by omega)]
  · rw [if_neg he, if_neg (by omega)]

/-- A pixel write leaves every pixel either at the written colour or at
its previous value. -/
theorem getPix_setPix (g : Grid) (y x i j : Nat) (c : Rgb) :
    getPix (setPix g y x c) i j = c ∨ getPix (setPix g y x c) i j = getPix g i j := by
  unfold getPix setPix
  rw [getD_set_general]
  by_cases hy : i = y ∧ y < g.length
  · rw [if_pos hy]
    rw [getD_set_general]
    by_cases hx : j = x ∧ x < (g.getD y []).length
    · rw [if_pos hx]
      exact Or.inl rfl
    · rw [if_neg hx]
      obtain ⟨rfl, _⟩ := hy
      exact Or.inr rfl
  · rw [if_neg hy]
    exact Or.inr rfl

/-- Stamping labels leaves every pixel either at the label colour or at
its value before stamping. -/
theorem stampLabels_pix :
    ∀ (stamps : List (Nat × Pos)) (g : Grid) (i j : Nat),
      getPix (stampLabels g stamps) i j = (130, 130, 130) ∨
      getPix (stampLabels g stamps) i j = getPix g i j := by
  intro stamps
  induction stamps with
  | nil => intro g i j; exact Or.inr rfl
  | cons s rest ih =>
    intro g i j
    rcases ih (setPix g s.2.1 s.2.2 (130, 130, 130)) i j with h | h
    · exact Or.inl h
    · rcases getPix_setPix g s.2.1 s.2.2 i j (130, 130, 130) with h2 | h2
      · exact Or.inl (h.trans h2)
      · exact Or.inr (h.trans h2)

/-- Claim C1 (amended): every pixel of the outline bitmap returned by the
paint-by-number transform is pure white, pure black, or the fixed label
grey (130,130,130) painted by the label stamping step.  (The original
claim said white or black only; the stamped label numbers are grey.) -/
theorem outline_pixel_colors (q : Grid) (w h : Nat) (pct : ℚ) (i j : Nat) :
    getPix (color_by_number q w h pct).1 i j = (255, 255, 255) ∨
    getPix (color_by_number q w h pct).1 i j = (0, 0, 0) ∨
    getPix (color_by_number q w h pct).1 i j = (130, 130, 130) := by
  unfold color_by_number
  rcases stampLabels_pix (stampsOf q w h pct) (outlineBase q w h) i j with h1 | h1
  · exact Or.inr (Or.inr h1)
  · rcases outlineBase_pix q w h i j with h2 | h2
    · exact Or.inr (Or.inl (h1.trans h2))
    · exact Or.inl (h1.trans h2)

/-- Counterexample to claim C1 as stated: on a concrete 4 by 5 one-colour
bitmap (quantized to itself) with min_region_percent 0, the label stamped
at the component's centroid makes pixel (1,2) of the returned outline
bitmap the label grey (130,130,130), which is neither pure white nor pure
black. -/
theorem outline_gray_pixel_counterexample :
    getPix (color_by_number img20 5 4 0).1 1 2 = (130, 130, 130) ∧
    ((130, 130, 130) : Rgb) ≠ (255, 255, 255) ∧
    ((130, 130, 130) : Rgb) ≠ (0, 0, 0) := by
  refine ⟨?_, by decide, by decide⟩
  have h20 : minSizeOf (4 * 5) 0 = 20 := by norm_num [minSizeOf]
  have hstamps : stampsOf img20 5 4 0 = [(1, (1, 2))] := by
    simp only [stampsOf, h20]
    decide
  show getPix (stampLabels (outlineBase img20 5 4) (stampsOf img20 5 4 0)) 1 2 = _
  rw [hstamps]
  decide

/-- Claim C4: the mosaic transform is deterministic.  The generator is
seeded with the fixed constant inside the call, so the output bitmap and
the seed placement do not depend on the ambient random state, and a
second invocation run in the environment state left behind by the first
produces a byte-identical bitmap and identical seed placement. -/
theorem mosaic_deterministic {σ α : Type} (R : RngModel σ)
    (V : List (ℚ × ℚ) → VorDiagram) (pf : Grid → List (ℚ × ℚ) → Rgb → Grid)
    (ps : Grid → List (ℚ × ℚ) → Rgb → Nat → Grid)
    (src : Grid) (numCells bw : Nat) :
    (∀ amb1 amb2 : α,
      (mosaicInvoke R V pf ps src numCells bw amb1).1 =
        (mosaicInvoke R V pf ps src numCells bw amb2).1) ∧
    (∀ amb : α,
      (mosaicInvoke R V pf ps src numCells bw
          (mosaicInvoke R V pf ps src numCells bw amb).2).1 =
        (mosaicInvoke R V pf ps src numCells bw amb).1) :=
  ⟨fun _ _ => rfl, fun _ => rfl⟩

/-- Buffer lookup below an appended store is unchanged. -/
theorem storeGet_append_lt (s : Store) (g : Grid) {t : Nat} (ht : t < s.length) :
    storeGet (s ++ [g]) t = storeGet s t := by
  unfold storeGet
  rw [List.getD_eq_getElem?_getD, List.getD_eq_getElem?_getD,
    List.getElem?_append, if_pos ht]

/-- Looking up a freshly appended buffer returns it. -/
theorem storeGet_append_self (s : Store) (g : Grid) :
    storeGet (s ++ [g]) s.length = g := by
  unfold storeGet
  rw [List.getD_eq_getElem?_getD, List.getElem?_append_right (le_refl _)]
  simp

/-- Lookup away from a written buffer is unchanged. -/
theorem storeGet_set_ne (s : Store) (n t : Nat) (g : Grid) (hne : t ≠ n) :
    storeGet (s.set n g) t = storeGet s t := by
  unfold storeGet
  rw [getD_set_general, if_neg (fun hc => hne hc.1)]

/-- Looking up a written buffer in range returns the written value. -/
theorem storeGet_set_self (s : Store) (n : Nat) (g : Grid) (hn : n < s.length) :
    storeGet (s.set n g) n = g := by
  unfold storeGet
  rw [getD_set_general, if_pos ⟨rfl, hn⟩]

/-- The store-passing shape of glitch: two fresh copies, an in-place
rewrite of the second one, and a fresh output buffer. -/
theorem glitchS_eq (core : Grid → Grid) (s : Store) (r : Nat) :
    glitchS core s r =
      ((s ++ [storeGet s r] ++ [storeGet s r]).set (s.length + 1)
          (core (storeGet s r)) ++ [core (storeGet s r)], s.length + 2) := by
  unfold glitchS alloc
  dsimp only
  rw [storeGet_append_self s (storeGet s r)]
  have h1 : (s ++ [storeGet s r]).length = s.length + 1 := by simp
  rw [h1]
  have h2 : storeGet (s ++ [storeGet s r] ++ [storeGet s r]) (s.length + 1) = storeGet s r := by
    have := storeGet_append_self (s ++ [storeGet s r]) (storeGet s r)
    rwa [h1] at this
  rw [h2]
  have h3 : storeGet ((s ++ [storeGet s r] ++ [storeGet s r]).set (s.length + 1)
      (core (storeGet s r))) (s.length + 1) = core (storeGet s r) := by
    apply storeGet_set_self
    simp
  rw [h3]
  have h4 : ((s ++ [storeGet s r] ++ [storeGet s r]).set (s.length + 1)
      (core (storeGet s r))).length = s.length + 2 := by simp
  rw [h4]

/-- Claim C8: the bounded-size loader and glitch never mutate the input
buffer and return a fresh buffer.  Within the limit the loader's result
is a copy with the input's exact pixels but a different reference, and in
every case every pre-existing buffer is left untouched; glitch likewise
returns a fresh reference and leaves every pre-existing buffer, the input
included, unchanged. -/
theorem loader_and_glitch_frame {σ : Type} (R : RngModel σ)
    (resizeL : Grid → Nat → Nat → Grid) (s : Store) (r : Nat)
    (maxDim intensity seed : Nat) (hr : r < s.length) :
    ((constrainS resizeL s r maxDim).2 ≠ r ∧
      (∀ t, t < s.length →
        storeGet (constrainS resizeL s r maxDim).1 t = storeGet s t) ∧
      (max (width (storeGet s r)) (storeGet s r).length ≤ maxDim →
        storeGet (constrainS resizeL s r maxDim).1
          (constrainS resizeL s r maxDim).2 = storeGet s r)) ∧
    ((glitch R s r intensity seed).2 ≠ r ∧
      ∀ t, t < s.length →
        storeGet (glitch R s r intensity seed).1 t = storeGet s t) := by
  constructor
  · unfold constrainS
    by_cases hc : max (width (storeGet s r)) (storeGet s r).length ≤ maxDim
    · rw [if_pos hc]
      refine ⟨by simp [alloc]; omega, ?_, ?_⟩
      · intro t ht
        exact storeGet_append_lt s _ ht
      · intro _
        exact storeGet_append_self s _
    · rw [if_neg hc]
      refine ⟨by simp [alloc]; omega, ?_, ?_⟩
      · intro t ht
        exact storeGet_append_lt s _ ht
      · intro hcon
        exact absurd hcon hc
  · unfold glitch
    rw [glitchS_eq]
    constructor
    · show s.length + 2 ≠ r
      omega
    · intro t ht
      show storeGet ((s ++ [storeGet s r] ++ [storeGet s r]).set (s.length + 1)
        (glitchCore R intensity seed (storeGet s r)) ++
          [glitchCore R intensity seed (storeGet s r)]) t = storeGet s t
      have hlen : ((s ++ [storeGet s r] ++ [storeGet s r]).set (s.length + 1)
          (glitchCore R intensity seed (storeGet s r))).length = s.length + 2 := by
        simp
      have hstep1 : storeGet ((s ++ [storeGet s r] ++ [storeGet s r]).set (s.length + 1)
          (glitchCore R intensity seed (storeGet s r)) ++
            [glitchCore R intensity seed (storeGet s r)]) t =
          storeGet ((s ++ [storeGet s r] ++ [storeGet s r]).set (s.length + 1)
            (glitchCore R intensity seed (storeGet s r))) t := by
        have := storeGet_append_lt ((s ++ [storeGet s r] ++ [storeGet s r]).set
          (s.length + 1) (glitchCore R intensity seed (storeGet s r)))
          (glitchCore R intensity seed (storeGet s r)) (t := t) (by omega)
        exact this
      rw [hstep1, storeGet_set_ne _ _ _ _ (by omega),
        storeGet_append_lt _ _ (by simp; omega), storeGet_append_lt _ _ ht]

/-- Witness for C8: on a concrete one-buffer store the loader returns a
fresh reference holding the same pixels, and glitch leaves the input
buffer unchanged. -/
theorem loader_and_glitch_frame_witness :
    (constrainS (fun g _ _ => g) [[[(1, 2, 3)]]] 0 800).2 ≠ 0 ∧
    storeGet (constrainS (fun g _ _ => g) [[[(1, 2, 3)]]] 0 800).1
      (constrainS (fun g _ _ => g) [[[(1, 2, 3)]]] 0 800).2 =
      storeGet [[[(1, 2, 3)]]] 0 ∧
    storeGet (glitch rngZero [[[(1, 2, 3)]]] 0 5 42).1 0 =
      storeGet [[[(1, 2, 3)]]] 0 := by
  have h := loader_and_glitch_frame rngZero (fun g _ _ => g) [[[(1, 2, 3)]]] 0
    800 5 42 (by decide)
  exact ⟨h.1.1, h.1.2.2 (by decide), h.2.2 0 (by decide)⟩

end Sentimize
